import Mathlib

/-!
Shallow embedding of the Canny image-transform engine
(src/rgba.rs, src/cpu.rs, src/pipeline.rs).

Pixel channels are modelled as rationals; the real code uses f64, whose
arithmetic is exact on the small dyadic values exercised here.  Rust
functions that can panic (the gradient kernel's invalid-index branch,
quantize's unwrap of the threshold lookup) are modelled as functions into
Option, with `none` standing for an abort; pipeline application threads
Option through the fold of actions.
-/

namespace Canny

/-- Pixel type, from `struct Rgba` in src/rgba.rs.  The source declares the
fields in order r, b, g, a; all channel-wise operations go through
`Into<[f64; 4]>` / `FromIterator` which use the order r, g, b, a, so the
field order only matters for the derived lexicographic `PartialOrd`
(see `Rgba.ltb`). -/
structure Rgba where
  r : ℚ
  g : ℚ
  b : ℚ
  a : ℚ
  deriving DecidableEq

namespace Rgba

/-- `Rgba::BLACK` -/
def BLACK : Rgba := ⟨0, 0, 0, 1⟩

/-- `Rgba::WHITE` -/
def WHITE : Rgba := ⟨1, 1, 1, 1⟩

/-- `Rgba::GRAYSCALE_FACTOR` -/
def GRAYSCALE_FACTOR : Rgba := ⟨3/10, 59/100, 11/100, 1⟩

/-- `Rgba::gray` -/
def gray (v : ℚ) : Rgba := ⟨v, v, v, 1⟩

/-- `Rgba::with_alpha` -/
def with_alpha (p : Rgba) (al : ℚ) : Rgba := { p with a := al }

/-- `Rgba::map` -/
def map (p : Rgba) (f : ℚ → ℚ) : Rgba := ⟨f p.r, f p.g, f p.b, f p.a⟩

/-- channel-wise `impl Add for Rgba` -/
instance : Add Rgba := ⟨fun p q => ⟨p.r + q.r, p.g + q.g, p.b + q.b, p.a + q.a⟩⟩

/-- channel-wise `impl Sub for Rgba` -/
instance : Sub Rgba := ⟨fun p q => ⟨p.r - q.r, p.g - q.g, p.b - q.b, p.a - q.a⟩⟩

/-- channel-wise `impl Mul for Rgba` -/
instance : Mul Rgba := ⟨fun p q => ⟨p.r * q.r, p.g * q.g, p.b * q.b, p.a * q.a⟩⟩

/-- `impl Div<f64> for Rgba`: channel-wise division by a scalar -/
instance : HDiv Rgba ℚ Rgba := ⟨fun p s => ⟨p.r / s, p.g / s, p.b / s, p.a / s⟩⟩

/-- `Rgba::min`: channel-wise minimum -/
def min (p q : Rgba) : Rgba :=
  ⟨Min.min p.r q.r, Min.min p.g q.g, Min.min p.b q.b, Min.min p.a q.a⟩

/-- `Rgba::max`: channel-wise maximum -/
def max (p q : Rgba) : Rgba :=
  ⟨Max.max p.r q.r, Max.max p.g q.g, Max.max p.b q.b, Max.max p.a q.a⟩

/-- `Rgba::grayscale`: multiply by the luminance weights, average the
resulting r, g, b, keep the weighted alpha. -/
def grayscale (p : Rgba) : Rgba :=
  let q := p * GRAYSCALE_FACTOR
  (gray ((q.r + q.g + q.b) / 3)).with_alpha q.a

/-- The derived `PartialOrd` on `Rgba` compares fields lexicographically in
their declaration order in the source, which is r, b, g, a. -/
def ltb (p q : Rgba) : Bool :=
  if p.r < q.r then true else if q.r < p.r then false
  else if p.b < q.b then true else if q.b < p.b then false
  else if p.g < q.g then true else if q.g < p.g then false
  else decide (p.a < q.a)

end Rgba

/-- Raster, from `struct Image(Vec<Vec<Rgba>>)` in src/cpu.rs.  The outer
index is x (width), the inner y (height); `construct` evaluates its
generator at every coordinate, so a raster is modelled by its dimensions
and its generator function. -/
structure Image where
  width : Nat
  height : Nat
  pix : Nat → Nat → Rgba

/-- `Image::construct` -/
def Image.construct (w h : Nat) (f : Nat → Nat → Rgba) : Image := ⟨w, h, f⟩

/-- `Image::from_pixel` -/
def Image.from_pixel (w h : Nat) (p : Rgba) : Image :=
  Image.construct w h fun _ _ => p

/-- `Image::black` (also `Image::empty`): the blank canvas used by
`generate`, all pixels `Rgba::BLACK` (r = g = b = 0, alpha = 1). -/
def Image.black (w h : Nat) : Image := Image.from_pixel w h Rgba.BLACK

/-- `Image::similar`: same dimensions, new content. -/
def Image.similar (img : Image) (f : Nat → Nat → Rgba) : Image :=
  Image.construct img.width img.height f

/-- `struct CpuPipeline { actions: Vec<Box<dyn FnOnce(Image) -> Image>> }`.
An action returning `none` models the Rust closure panicking. -/
structure CpuPipeline where
  actions : List (Image → Option Image)

namespace CpuPipeline

/-- `CpuPipeline::default()`: the empty pipeline. -/
def default : CpuPipeline := ⟨[]⟩

/-- `CpuPipeline::commit` -/
def commit (p : CpuPipeline) (f : Image → Option Image) : CpuPipeline :=
  ⟨p.actions ++ [f]⟩

/-- `Pipeline::apply`: fold the actions left-to-right over the input. -/
def apply (p : CpuPipeline) (img : Image) : Option Image :=
  p.actions.foldl (fun acc f => acc.bind f) (some img)

/-- `Pipeline::generate`: apply against a fresh all-black raster. -/
def generate (p : CpuPipeline) (w h : Nat) : Option Image :=
  p.apply (Image.black w h)

end CpuPipeline

/-- The index clamping in `CpuPipeline::offset`:
`(v).min(bound as i64 - 1).max(0) as usize`. -/
def clampIdx (v : Int) (bound : Nat) : Nat :=
  (Max.max (Min.min v ((bound : Int) - 1)) 0).toNat

/-- The action committed by `CpuPipeline::offset`: edge-replicating shift. -/
def offsetFn (dx dy : Int) : Image → Option Image := fun img =>
  some (img.similar fun i j =>
    img.pix (clampIdx ((i : Int) + dx) img.width)
            (clampIdx ((j : Int) + dy) img.height))

/-- `CpuPipeline::offset` -/
def CpuPipeline.offset (p : CpuPipeline) (dx dy : Int) : CpuPipeline :=
  p.commit (offsetFn dx dy)

/-- The action committed by `CpuPipeline::dim`. -/
def dimFn (factor : Rgba) : Image → Option Image := fun img =>
  some (img.similar fun x y => img.pix x y * factor)

/-- `CpuPipeline::dim` -/
def CpuPipeline.dim (p : CpuPipeline) (factor : Rgba) : CpuPipeline :=
  p.commit (dimFn factor)

/-- The action committed by `CpuPipeline::add`: apply the other pipeline to
the same raster, then add channel-wise. -/
def addFn (other : CpuPipeline) : Image → Option Image := fun img =>
  (other.apply img).map fun o => img.similar fun x y => img.pix x y + o.pix x y

/-- `CpuPipeline::add` -/
def CpuPipeline.add (p other : CpuPipeline) : CpuPipeline :=
  p.commit (addFn other)

/-- The action committed by `CpuPipeline::sub`: subtract channel-wise, then
restore the left operand's alpha. -/
def subFn (other : CpuPipeline) : Image → Option Image := fun img =>
  (other.apply img).map fun o => img.similar fun x y =>
    (img.pix x y - o.pix x y).with_alpha (img.pix x y).a

/-- `CpuPipeline::sub` -/
def CpuPipeline.sub (p other : CpuPipeline) : CpuPipeline :=
  p.commit (subFn other)

/-- The action committed by `CpuPipeline::ennoise`: recenter the noise
around zero, double it, and add. -/
def ennoiseFn (noise : CpuPipeline) : Image → Option Image := fun img =>
  (noise.apply img).map fun o => img.similar fun x y =>
    img.pix x y + (o.pix x y - Rgba.gray (1/2)) * Rgba.gray 2

/-- `CpuPipeline::ennoise` -/
def CpuPipeline.ennoise (p noise : CpuPipeline) : CpuPipeline :=
  p.commit (ennoiseFn noise)

/-- The action committed by `CpuPipeline::invert`. -/
def invertFn : Image → Option Image := fun img =>
  some (img.similar fun x y => Rgba.gray 1 - img.pix x y)

/-- `CpuPipeline::invert` -/
def CpuPipeline.invert (p : CpuPipeline) : CpuPipeline :=
  p.commit invertFn

/-- The second action committed by `CpuPipeline::grayscale`. -/
def grayscaleFn : Image → Option Image := fun img =>
  some (img.similar fun x y => (img.pix x y).grayscale)

/-- `CpuPipeline::grayscale`: a dim by the luminance weights followed by the
per-pixel grayscale reduction (two committed actions). -/
def CpuPipeline.grayscale (p : CpuPipeline) : CpuPipeline :=
  (p.dim Rgba.GRAYSCALE_FACTOR).commit grayscaleFn

/-- The per-cell offset in `CpuPipeline::convolve`, written in the source as
`x as i64 - needle_width as i64 >> 1`.  In Rust `-` binds tighter than `>>`,
so this is `(x - needle_width) >> 1`, and `>>` on i64 is an arithmetic
shift, i.e. floor division by 2. -/
def convOffset (c n : Nat) : Int := Int.fdiv ((c : Int) - (n : Int)) 2

/-- The kernel-cell traversal of `CpuPipeline::convolve`:
`(0..w).flat_map(|x| (0..h).map(|y| (x, y)))`. -/
def convCells (w h : Nat) : List (Nat × Nat) :=
  (List.range w).flatMap fun x => (List.range h).map fun y => (x, y)

/-- The weighted-shifted copy `CpuPipeline::convolve` builds for one kernel
cell: freeze the input raster, offset it by the (mis-parenthesised)
half-kernel shift, and dim it by the kernel's weight pixel at that cell. -/
def copyPipe (frozen : Image) (nw nh : Nat) (c : Nat × Nat) (np : Rgba) :
    CpuPipeline :=
  ((CpuPipeline.default.commit fun _ => some frozen).offset
      (convOffset c.1 nw) (convOffset c.2 nh)).dim np

/-- Building the list of per-cell copies; a `none` from the kernel function
(the panicking branch) aborts the whole convolution, as the panic does in
the source. -/
def collectCopies (needle : Nat → Nat → Option Rgba)
    (mk : Nat × Nat → Rgba → CpuPipeline) :
    List (Nat × Nat) → Option (List CpuPipeline)
  | [] => some []
  | c :: rest =>
    match needle c.1 c.2 with
    | none => none
    | some np => (collectCopies needle mk rest).map fun l => mk c np :: l

/-- The action committed by `CpuPipeline::convolve`: fold the weighted
copies with the caller's combinator starting from the empty pipeline, then
materialize at the input raster's dimensions. -/
def convolveFn (nw nh : Nat) (needle : Nat → Nat → Option Rgba)
    (f : CpuPipeline → CpuPipeline → CpuPipeline) : Image → Option Image :=
  fun img =>
    (collectCopies needle (fun c np => copyPipe img nw nh c np)
        (convCells nw nh)).bind
      fun copies =>
        (copies.foldl f CpuPipeline.default).generate img.width img.height

/-- `CpuPipeline::convolve` -/
def CpuPipeline.convolve (p : CpuPipeline) (nw nh : Nat)
    (needle : Nat → Nat → Option Rgba)
    (f : CpuPipeline → CpuPipeline → CpuPipeline) : CpuPipeline :=
  p.commit (convolveFn nw nh needle f)

/-- `CpuPipeline::convolve_by`: convolve against a materialized kernel
raster.  The indexing `needle[(x, y)]` cannot panic because the traversal
is bounded by the kernel's own dimensions. -/
def CpuPipeline.convolve_by (p : CpuPipeline) (k : Image)
    (f : CpuPipeline → CpuPipeline → CpuPipeline) : CpuPipeline :=
  p.convolve k.width k.height (fun x y => some (k.pix x y)) f

/-- `image_by` from src/cpu.rs: combine the accumulated raster with the
other pipeline generated at its dimensions, channel-wise by `op`. -/
def image_by (op : Rgba → Rgba → Rgba) (p other : CpuPipeline) : CpuPipeline :=
  p.commit fun timg =>
    (other.generate timg.width timg.height).map fun o =>
      timg.similar fun x y => op (timg.pix x y) (o.pix x y)

/-- `enum Filter` from src/lib.rs. -/
inductive Filter where
  | Convoluted : CpuPipeline → Filter
  | Median : Nat → Filter

/-- The action committed by `CpuPipeline::filter` for `Filter::Median`:
two convolutions of the input against an all-white size-square kernel, one
folded with channel-wise min and one with channel-wise max, combined as
their channel-wise SUM (the source computes `min + max` with no division). -/
def medianFn (size : Nat) : Image → Option Image := fun img =>
  let needle := Image.from_pixel size size Rgba.WHITE
  ((CpuPipeline.default.convolve_by needle (image_by Rgba.min)).apply img).bind
    fun mn =>
      ((CpuPipeline.default.convolve_by needle
          (image_by Rgba.max)).apply img).bind
        fun mx => some (img.similar fun x y => mn.pix x y + mx.pix x y)

/-- `CpuPipeline::filter`.  For `Convoluted` the kernel pipeline is
materialized eagerly via `generate(0, 0)`; a kernel pipeline that aborts is
modelled as an aborting action. -/
def CpuPipeline.filter (p : CpuPipeline) : Filter → CpuPipeline
  | Filter.Convoluted n =>
    match n.generate 0 0 with
    | some k => p.convolve_by k CpuPipeline.add
    | none => p.commit fun _ => none
  | Filter.Median size => p.commit (medianFn size)

/-- The 3-by-3 gradient kernel function in `CpuPipeline::gradient`; the
final match arm is `panic!`, modelled as `none`. -/
def gradientNeedle : Nat → Nat → Option Rgba
  | 0, 0 | 1, 1 | 2, 2 | 0, 2 | 2, 0 => some Rgba.BLACK
  | 1, 0 | 0, 1 => some (Rgba.WHITE.map fun v => -v)
  | 1, 2 | 2, 1 => some Rgba.WHITE
  | _, _ => none

/-- The per-channel absolute-value action appended by
`CpuPipeline::gradient` after the convolution. -/
def absFn : Image → Option Image := fun img =>
  some (img.similar fun x y => (img.pix x y).map abs)

/-- `CpuPipeline::gradient` -/
def CpuPipeline.gradient (p : CpuPipeline) : CpuPipeline :=
  (p.convolve 3 3 gradientNeedle (image_by (· + ·))).commit absFn

/-- The action committed by `CpuPipeline::non_max_suppress`.  The neighbor
comparisons use the derived lexicographic order on `Rgba` (`Rgba.ltb`);
boundary coordinates are clamped to the raster edge. -/
def nmsFn : Image → Option Image := fun img =>
  some (img.similar fun x y =>
    let suppress := fun (s : (Nat × Nat) × (Nat × Nat) × (Nat × Nat)) =>
      Rgba.ltb (img.pix s.1.1 s.1.2) (img.pix s.2.1.1 s.2.1.2) &&
      Rgba.ltb (img.pix s.2.2.1 s.2.2.2) (img.pix s.2.1.1 s.2.1.2)
    let xp := x - 1
    let xn := Nat.min (x + 1) (img.width - 1)
    let yp := y - 1
    let yn := Nat.min (y + 1) (img.height - 1)
    if suppress ((xp, yp), (x, y), (xn, yn)) ||
       suppress ((xp, y), (x, y), (xn, y)) ||
       suppress ((x, yp), (x, y), (x, yn)) ||
       suppress ((xp, yn), (x, y), (xn, yp))
    then img.pix x y else Rgba.BLACK)

/-- `CpuPipeline::non_max_suppress` -/
def CpuPipeline.non_max_suppress (p : CpuPipeline) : CpuPipeline :=
  p.commit nmsFn

/-- The intensity reduction in `CpuPipeline::quantize`: the channel array
[r, g, b, a] is reversed, the alpha dropped, and the rest summed and
divided by 3 — i.e. (r + g + b) / 3. -/
def intensity (p : Rgba) : ℚ := (p.b + p.g + p.r) / 3

/-- The threshold table built by `CpuPipeline::quantize`: the thresholds
reversed, a 0.0 sentinel appended, each paired with the gray level
`position / original_length`. -/
def quantSteps (thresholds : List ℚ) : List (Rgba × ℚ) :=
  (thresholds.reverse ++ [0]).enum.map fun (nt : Nat × ℚ) =>
    (Rgba.gray ((nt.1 : ℚ) / (thresholds.length : ℚ)), nt.2)

/-- The per-pixel lookup in `CpuPipeline::quantize`: the first table entry
whose threshold the intensity meets or exceeds. -/
def stepLookup (steps : List (Rgba × ℚ)) (v : ℚ) : Option (Rgba × ℚ) :=
  steps.find? fun s => decide (s.2 ≤ v)

/-- The action committed by `CpuPipeline::quantize`; a failed lookup at any
in-range pixel is the source's `unwrap` panic, modelled as `none`. -/
def quantFn (steps : List (Rgba × ℚ)) : Image → Option Image := fun img =>
  if (List.range img.width).all (fun x =>
      (List.range img.height).all fun y =>
        (stepLookup steps (intensity (img.pix x y))).isSome)
  then some (img.similar fun x y =>
    ((stepLookup steps (intensity (img.pix x y))).getD (Rgba.gray 0, 0)).1)
  else none

/-- `CpuPipeline::quantize` -/
def CpuPipeline.quantize (p : CpuPipeline) (thresholds : List ℚ) :
    CpuPipeline :=
  p.commit (quantFn (quantSteps thresholds))

/-- The kernel raster built by `CpuGenerator::gaussian_needle`.  The f64
Gaussian density `Gaussian::new(0, variance).density(sqrt(i*i + j*j))` is
transcendental; it is abstracted as a caller-supplied function `pdf` of the
variance and the squared Euclidean distance from the kernel center, so that
every claim proved about the blur is independent of the density's values. -/
def gaussNeedleImage (pdf : ℚ → ℚ → ℚ) (variance : ℚ) (size : Nat) : Image :=
  Image.construct size size fun i j =>
    let center : Int := ((size / 2 : Nat) : Int)
    let di := ((i : Int) - center).natAbs
    let dj := ((j : Int) - center).natAbs
    Rgba.gray (pdf variance ((di * di + dj * dj : Nat) : ℚ))

/-- `CpuGenerator::gaussian_needle`: a `Filter::Convoluted` whose kernel
pipeline ignores its input and produces the size-square Gaussian raster. -/
def gaussian_needle (pdf : ℚ → ℚ → ℚ) (size : Nat) (variance : ℚ) : Filter :=
  Filter.Convoluted
    (CpuPipeline.default.commit fun _ => some (gaussNeedleImage pdf variance size))

/-- `CpuPipeline::gaussian_blur`: both arguments are ignored; the step
always filters with `CpuGenerator::new(5).gaussian_needle(0.6)`. -/
def CpuPipeline.gaussian_blur (pdf : ℚ → ℚ → ℚ) (p : CpuPipeline)
    (size : Nat) (variance : ℚ) : CpuPipeline :=
  p.filter (gaussian_needle pdf 5 (6/10))

/-! ### Helper lemmas about pipeline application -/

theorem apply_commit (p : CpuPipeline) (f : Image → Option Image)
    (img : Image) : (p.commit f).apply img = (p.apply img).bind f := by
  show ((p.actions ++ [f]).foldl (fun acc g => acc.bind g) (some img)) = _
  rw [List.foldl_append]
  rfl

theorem apply_default (img : Image) :
    CpuPipeline.default.apply img = some img := rfl

theorem foldl_bind_none :
    ∀ l : List (Image → Option Image),
      l.foldl (fun acc f => acc.bind f) none = none
  | [] => rfl
  | _ :: l => foldl_bind_none l

/-- A pipeline action that can only return rasters of its input's
dimensions. -/
def StepOk (f : Image → Option Image) : Prop :=
  ∀ img o, f img = some o → o.width = img.width ∧ o.height = img.height

/-- A pipeline whose application can only return rasters of the input's
dimensions. -/
def Pres (q : CpuPipeline) : Prop :=
  ∀ im o, q.apply im = some o → o.width = im.width ∧ o.height = im.height

theorem pres_default : Pres CpuPipeline.default := by
  intro im o h
  cases h
  exact ⟨rfl, rfl⟩

theorem pres_commit_similar (q : CpuPipeline) (f : Image → Option Image)
    (hq : Pres q) (hf : StepOk f) : Pres (q.commit f) := by
  intro im o h
  rw [apply_commit] at h
  rcases Option.bind_eq_some.mp h with ⟨mid, hmid, hf'⟩
  rcases hq im mid hmid with ⟨hw, hh⟩
  rcases hf mid o hf' with ⟨hw', hh'⟩
  exact ⟨hw'.trans hw, hh'.trans hh⟩

theorem stepOk_addFn (other : CpuPipeline) : StepOk (addFn other) := by
  intro img o h
  rcases Option.map_eq_some'.mp h with ⟨q, _, rfl⟩
  exact ⟨rfl, rfl⟩

theorem stepOk_subFn (other : CpuPipeline) : StepOk (subFn other) := by
  intro img o h
  rcases Option.map_eq_some'.mp h with ⟨q, _, rfl⟩
  exact ⟨rfl, rfl⟩

theorem stepOk_ennoiseFn (other : CpuPipeline) : StepOk (ennoiseFn other) := by
  intro img o h
  rcases Option.map_eq_some'.mp h with ⟨q, _, rfl⟩
  exact ⟨rfl, rfl⟩

theorem stepOk_offsetFn (dx dy : Int) : StepOk (offsetFn dx dy) := by
  intro img o h
  cases h
  exact ⟨rfl, rfl⟩

theorem stepOk_dimFn (c : Rgba) : StepOk (dimFn c) := by
  intro img o h
  cases h
  exact ⟨rfl, rfl⟩

theorem stepOk_invertFn : StepOk invertFn := by
  intro img o h
  cases h
  exact ⟨rfl, rfl⟩

theorem stepOk_grayscaleFn : StepOk grayscaleFn := by
  intro img o h
  cases h
  exact ⟨rfl, rfl⟩

theorem stepOk_nmsFn : StepOk nmsFn := by
  intro img o h
  cases h
  exact ⟨rfl, rfl⟩

theorem stepOk_absFn : StepOk absFn := by
  intro img o h
  cases h
  exact ⟨rfl, rfl⟩

theorem stepOk_medianFn (size : Nat) : StepOk (medianFn size) := by
  intro img o h
  unfold medianFn at h
  rcases Option.bind_eq_some.mp h with ⟨mn, _, h⟩
  rcases Option.bind_eq_some.mp h with ⟨mx, _, h⟩
  cases h
  exact ⟨rfl, rfl⟩

theorem stepOk_quantFn (steps : List (Rgba × ℚ)) : StepOk (quantFn steps) := by
  intro img o h
  unfold quantFn at h
  split at h
  · cases h
    exact ⟨rfl, rfl⟩
  · exact absurd h (by simp)

theorem pres_add (acc c : CpuPipeline) (h : Pres acc) : Pres (acc.add c) :=
  pres_commit_similar acc (addFn c) h (stepOk_addFn c)

theorem pres_image_by (op : Rgba → Rgba → Rgba) (acc c : CpuPipeline)
    (h : Pres acc) : Pres (image_by op acc c) := by
  refine pres_commit_similar acc _ h ?_
  intro img o ho
  rcases Option.map_eq_some'.mp ho with ⟨q, _, rfl⟩
  exact ⟨rfl, rfl⟩

theorem pres_foldl (F : CpuPipeline → CpuPipeline → CpuPipeline)
    (hF : ∀ acc c, Pres acc → Pres (F acc c)) :
    ∀ (l : List CpuPipeline) (acc : CpuPipeline),
      Pres acc → Pres (l.foldl F acc)
  | [], _, h => h
  | c :: l, acc, h => pres_foldl F hF l (F acc c) (hF acc c h)

theorem stepOk_convolveFn_of_pres (nw nh : Nat)
    (needle : Nat → Nat → Option Rgba)
    (F : CpuPipeline → CpuPipeline → CpuPipeline)
    (hF : ∀ acc c, Pres acc → Pres (F acc c)) :
    StepOk (convolveFn nw nh needle F) := by
  intro img o h
  unfold convolveFn at h
  rcases Option.bind_eq_some.mp h with ⟨copies, _, hgen⟩
  have := pres_foldl F hF copies CpuPipeline.default pres_default
    (Image.black img.width img.height) o hgen
  exact this

theorem stepOk_convolveFn_add (nw nh : Nat)
    (needle : Nat → Nat → Option Rgba) :
    StepOk (convolveFn nw nh needle CpuPipeline.add) :=
  stepOk_convolveFn_of_pres nw nh needle CpuPipeline.add pres_add

theorem stepOk_convolveFn_image_by (nw nh : Nat)
    (needle : Nat → Nat → Option Rgba) (op : Rgba → Rgba → Rgba) :
    StepOk (convolveFn nw nh needle (image_by op)) :=
  stepOk_convolveFn_of_pres nw nh needle (image_by op) (pres_image_by op)

/-! ### Dimension invariance for built pipelines -/

/-- All actions recorded in a pipeline preserve dimensions when they
succeed. -/
def AllOk (p : CpuPipeline) : Prop := ∀ f ∈ p.actions, StepOk f

theorem allOk_default : AllOk CpuPipeline.default := by
  intro f hf
  cases hf

theorem allOk_commit (p : CpuPipeline) (f : Image → Option Image)
    (hp : AllOk p) (hf : StepOk f) : AllOk (p.commit f) := by
  intro g hg
  rcases List.mem_append.mp hg with h | h
  · exact hp g h
  · rcases List.mem_singleton.mp h with rfl
    exact hf

theorem apply_dims_aux :
    ∀ (l : List (Image → Option Image)) (img : Image),
      (∀ f ∈ l, StepOk f) → ∀ o,
        l.foldl (fun acc f => acc.bind f) (some img) = some o →
        o.width = img.width ∧ o.height = img.height
  | [], img, _, o, h => by
    cases h
    exact ⟨rfl, rfl⟩
  | f :: l, img, hl, o, h => by
    rcases hf : f img with _ | m
    · rw [List.foldl_cons, show (some img).bind f = none by rw [Option.some_bind, hf],
        foldl_bind_none] at h
      cases h
    · rw [List.foldl_cons, show (some img).bind f = some m by
        rw [Option.some_bind, hf]] at h
      have h1 := hl f (List.mem_cons_self f l) img m hf
      have h2 := apply_dims_aux l m (fun g hg => hl g (List.mem_cons_of_mem f hg)) o h
      exact ⟨h2.1.trans h1.1, h2.2.trans h1.2⟩

theorem allOk_apply_dims (p : CpuPipeline) (h : AllOk p) (img o : Image)
    (ha : p.apply img = some o) :
    o.width = img.width ∧ o.height = img.height :=
  apply_dims_aux p.actions img h o ha

theorem allOk_filter (p : CpuPipeline) (fl : Filter) (hp : AllOk p) :
    AllOk (p.filter fl) := by
  cases fl with
  | Convoluted n =>
    have heq : p.filter (Filter.Convoluted n) =
        (match n.generate 0 0 with
          | some k => p.convolve_by k CpuPipeline.add
          | none => p.commit fun _ => none) := rfl
    rw [heq]
    cases n.generate 0 0 with
    | none => exact allOk_commit p _ hp fun img o h => Option.noConfusion h
    | some k => exact allOk_commit p _ hp (stepOk_convolveFn_add _ _ _)
  | Median size => exact allOk_commit p _ hp (stepOk_medianFn size)

/-- The pipelines obtainable from the public builder steps of the
`Pipeline` trait, as implemented by `CpuPipeline`. -/
inductive Built : CpuPipeline → Prop where
  | default : Built CpuPipeline.default
  | offset {p : CpuPipeline} (dx dy : Int) : Built p → Built (p.offset dx dy)
  | dim {p : CpuPipeline} (c : Rgba) : Built p → Built (p.dim c)
  | add {p q : CpuPipeline} : Built p → Built q → Built (p.add q)
  | sub {p q : CpuPipeline} : Built p → Built q → Built (p.sub q)
  | ennoise {p q : CpuPipeline} : Built p → Built q → Built (p.ennoise q)
  | invert {p : CpuPipeline} : Built p → Built p.invert
  | grayscale {p : CpuPipeline} : Built p → Built p.grayscale
  | gradient {p : CpuPipeline} : Built p → Built p.gradient
  | non_max_suppress {p : CpuPipeline} : Built p → Built p.non_max_suppress
  | quantize {p : CpuPipeline} (ts : List ℚ) :
      Built p → Built (p.quantize ts)
  | filter {p : CpuPipeline} (fl : Filter) : Built p → Built (p.filter fl)
  | gaussian_blur {p : CpuPipeline} (pdf : ℚ → ℚ → ℚ) (size : Nat)
      (variance : ℚ) : Built p → Built (p.gaussian_blur pdf size variance)

theorem built_allOk (p : CpuPipeline) (h : Built p) : AllOk p := by
  induction h with
  | default => exact allOk_default
  | offset dx dy _ ih => exact allOk_commit _ _ ih (stepOk_offsetFn dx dy)
  | dim c _ ih => exact allOk_commit _ _ ih (stepOk_dimFn c)
  | add _ _ ihp _ => exact allOk_commit _ _ ihp (stepOk_addFn _)
  | sub _ _ ihp _ => exact allOk_commit _ _ ihp (stepOk_subFn _)
  | ennoise _ _ ihp _ => exact allOk_commit _ _ ihp (stepOk_ennoiseFn _)
  | invert _ ih => exact allOk_commit _ _ ih stepOk_invertFn
  | grayscale _ ih =>
    exact allOk_commit _ _ (allOk_commit _ _ ih (stepOk_dimFn _)) stepOk_grayscaleFn
  | gradient _ ih =>
    exact allOk_commit _ _
      (allOk_commit _ _ ih (stepOk_convolveFn_image_by 3 3 gradientNeedle _))
      stepOk_absFn
  | non_max_suppress _ ih => exact allOk_commit _ _ ih stepOk_nmsFn
  | quantize ts _ ih => exact allOk_commit _ _ ih (stepOk_quantFn _)
  | filter fl _ ih => exact allOk_filter _ fl ih
  | gaussian_blur pdf size variance _ ih => exact allOk_filter _ _ ih

/-! ### Evaluating the weighted-shifted copies and their folds -/

/-- The raster a single weighted-shifted copy evaluates to: the frozen
input, shifted by the per-cell offsets with edge clamping, dimmed by the
kernel weight. -/
def copyValue (frozen : Image) (nw nh : Nat) (c : Nat × Nat) (np : Rgba) :
    Image :=
  Image.mk frozen.width frozen.height fun x y =>
    frozen.pix (clampIdx ((x : Int) + convOffset c.1 nw) frozen.width)
               (clampIdx ((y : Int) + convOffset c.2 nh) frozen.height) * np

theorem copyPipe_apply (frozen : Image) (nw nh : Nat) (c : Nat × Nat)
    (np : Rgba) (im : Image) :
    (copyPipe frozen nw nh c np).apply im =
      some (copyValue frozen nw nh c np) := rfl

/-- The pixel one kernel cell contributes at output coordinate (x, y). -/
def cellSample (frozen : Image) (nw nh : Nat) (nf : Nat → Nat → Rgba)
    (c : Nat × Nat) (x y : Nat) : Rgba :=
  frozen.pix (clampIdx ((x : Int) + convOffset c.1 nw) frozen.width)
             (clampIdx ((y : Int) + convOffset c.2 nh) frozen.height) *
    nf c.1 c.2

theorem collectCopies_total (nf : Nat → Nat → Rgba)
    (mk : Nat × Nat → Rgba → CpuPipeline) :
    ∀ l : List (Nat × Nat),
      collectCopies (fun x y => some (nf x y)) mk l =
        some (l.map fun c => mk c (nf c.1 c.2))
  | [] => rfl
  | c :: l => by
    show (collectCopies (fun x y => some (nf x y)) mk l).map _ = _
    rw [collectCopies_total nf mk l]
    rfl

/-- Folding the copies with the `add` combinator: the result exists, keeps
the base raster's dimensions, and every pixel is the base pixel summed with
each cell's sample in traversal order. -/
theorem foldl_add_apply (frozen : Image) (nw nh : Nat)
    (nf : Nat → Nat → Rgba) :
    ∀ (l : List (Nat × Nat)) (acc : CpuPipeline) (base m : Image),
      acc.apply base = some m →
      ∃ o,
        ((l.map fun c => copyPipe frozen nw nh c (nf c.1 c.2)).foldl
            CpuPipeline.add acc).apply base = some o ∧
        o.width = m.width ∧ o.height = m.height ∧
        ∀ x y, o.pix x y =
          l.foldl (fun t c => t + cellSample frozen nw nh nf c x y)
            (m.pix x y)
  | [], acc, base, m, h => ⟨m, h, rfl, rfl, fun _ _ => rfl⟩
  | c :: l, acc, base, m, h => by
    have hstep : (acc.add (copyPipe frozen nw nh c (nf c.1 c.2))).apply base =
        some (m.similar fun x y =>
          m.pix x y + cellSample frozen nw nh nf c x y) := by
      rw [CpuPipeline.add, apply_commit, h]
      rfl
    rcases foldl_add_apply frozen nw nh nf l
        (acc.add (copyPipe frozen nw nh c (nf c.1 c.2))) base
        (m.similar fun x y => m.pix x y + cellSample frozen nw nh nf c x y)
        hstep with ⟨o, ho, hw, hh, hp⟩
    exact ⟨o, ho, hw, hh, fun x y => hp x y⟩

/-- Folding the copies with an `image_by` combinator: same shape, with the
caller's channel-wise operation in place of addition. -/
theorem foldl_image_by_apply (frozen : Image) (nw nh : Nat)
    (nf : Nat → Nat → Rgba) (op : Rgba → Rgba → Rgba) :
    ∀ (l : List (Nat × Nat)) (acc : CpuPipeline) (base m : Image),
      acc.apply base = some m →
      ∃ o,
        ((l.map fun c => copyPipe frozen nw nh c (nf c.1 c.2)).foldl
            (image_by op) acc).apply base = some o ∧
        o.width = m.width ∧ o.height = m.height ∧
        ∀ x y, o.pix x y =
          l.foldl (fun t c => op t (cellSample frozen nw nh nf c x y))
            (m.pix x y)
  | [], acc, base, m, h => ⟨m, h, rfl, rfl, fun _ _ => rfl⟩
  | c :: l, acc, base, m, h => by
    have hstep : (image_by op acc (copyPipe frozen nw nh c (nf c.1 c.2))).apply
        base = some (m.similar fun x y =>
          op (m.pix x y) (cellSample frozen nw nh nf c x y)) := by
      rw [image_by, apply_commit, h]
      rfl
    rcases foldl_image_by_apply frozen nw nh nf op l
        (image_by op acc (copyPipe frozen nw nh c (nf c.1 c.2))) base
        (m.similar fun x y => op (m.pix x y) (cellSample frozen nw nh nf c x y))
        hstep with ⟨o, ho, hw, hh, hp⟩
    exact ⟨o, ho, hw, hh, fun x y => hp x y⟩

/-- The convolution action with a total kernel function and the `add`
combinator, fully evaluated: it always succeeds and each output pixel is
the all-black pixel (r = g = b = 0, alpha = 1) summed with every cell's
weighted sample. -/
theorem convolveFn_add_eval (nw nh : Nat) (nf : Nat → Nat → Rgba)
    (img : Image) :
    ∃ o, convolveFn nw nh (fun x y => some (nf x y)) CpuPipeline.add img =
        some o ∧
      o.width = img.width ∧ o.height = img.height ∧
      ∀ x y, o.pix x y =
        (convCells nw nh).foldl
          (fun t c => t + cellSample img nw nh nf c x y) Rgba.BLACK := by
  unfold convolveFn
  rw [collectCopies_total]
  rcases foldl_add_apply img nw nh nf (convCells nw nh) CpuPipeline.default
      (Image.black img.width img.height) (Image.black img.width img.height)
      rfl with ⟨o, ho, hw, hh, hp⟩
  exact ⟨o, ho, hw, hh, fun x y => hp x y⟩

/-- The convolution action with a total kernel function and an `image_by`
combinator, fully evaluated. -/
theorem convolveFn_image_by_eval (nw nh : Nat) (nf : Nat → Nat → Rgba)
    (op : Rgba → Rgba → Rgba) (img : Image) :
    ∃ o, convolveFn nw nh (fun x y => some (nf x y)) (image_by op) img =
        some o ∧
      o.width = img.width ∧ o.height = img.height ∧
      ∀ x y, o.pix x y =
        (convCells nw nh).foldl
          (fun t c => op t (cellSample img nw nh nf c x y)) Rgba.BLACK := by
  unfold convolveFn
  rw [collectCopies_total]
  rcases foldl_image_by_apply img nw nh nf op (convCells nw nh)
      CpuPipeline.default
      (Image.black img.width img.height) (Image.black img.width img.height)
      rfl with ⟨o, ho, hw, hh, hp⟩
  exact ⟨o, ho, hw, hh, fun x y => hp x y⟩

/-! ### Small projection lemmas and concrete test rasters -/

/-- Channel-wise non-negativity of a pixel. -/
def Rgba.Nonneg (p : Rgba) : Prop := 0 ≤ p.r ∧ 0 ≤ p.g ∧ 0 ≤ p.b ∧ 0 ≤ p.a

theorem Rgba.add_a (p q : Rgba) : (p + q).a = p.a + q.a := rfl

theorem Rgba.mul_a (p q : Rgba) : (p * q).a = p.a * q.a := rfl

theorem Rgba.min_r (p q : Rgba) : (Rgba.min p q).r = Min.min p.r q.r := rfl

theorem Rgba.min_g (p q : Rgba) : (Rgba.min p q).g = Min.min p.g q.g := rfl

theorem Rgba.min_b (p q : Rgba) : (Rgba.min p q).b = Min.min p.b q.b := rfl

/-- A 2-by-2 test raster with four distinct pixels. -/
def testImg4 : Image := Image.construct 2 2 fun x y => Rgba.gray ((x + 2 * y : ℚ) / 10)

/-- A 3-by-3 test raster with nine distinct pixels. -/
def testImg3 : Image := Image.construct 3 3 fun x y => Rgba.gray ((3 * x + y : ℚ) / 10)

/-- A 1-by-1 raster of intensity exactly one half. -/
def halfImg : Image := Image.construct 1 1 fun _ _ => Rgba.gray (1/2)

/-- A 1-by-1 raster of intensity exactly 0.4. -/
def img04 : Image := Image.construct 1 1 fun _ _ => Rgba.gray (2/5)

/-- A 1-by-1 raster whose single pixel has negative intensity. -/
def negImg : Image := Image.construct 1 1 fun _ _ => Rgba.mk (-1) (-1) (-1) 1

/-! ### Claims -/

/-- C1: the claim says every kernel cell's weighted copy offsets the frozen
input by `(cellX − kernelWidth/2, cellY − kernelHeight/2)` (integer
division, shift toward center).  The code's offset expression
`x as i64 - needle_width as i64 >> 1` parses as
`(cellX − kernelWidth) >> 1` (in Rust `-` binds tighter than `>>`), which
disagrees: at cell x = 2 of a width-3 kernel the code offsets by −1 while
the claimed formula gives +1, and at the sole cell of a width-1 kernel the
code offsets by −1 while the claimed formula gives 0.  The claimed formula
is the evident intent (a centered kernel); the code is a precedence slip
that even collapses distinct cells of a width-3 kernel onto the same
offset (−2, −1, −1). -/
theorem conv_offset_precedence :
    convOffset 2 3 = -1 ∧ (2 : Int) - 3 / 2 = 1 ∧
    convOffset 0 1 = -1 ∧ (0 : Int) - 1 / 2 = 0 ∧
    (convOffset 0 3, convOffset 1 3, convOffset 2 3) =
      ((-2 : Int), (-1 : Int), (-1 : Int)) := by decide

/-- C4: the claim says convolving with a 1-by-1 kernel of weight 1.0 on
every channel, combined by `add`, is the identity transform.  It is not:
on a 2-by-2 raster with pixel (x, y) = gray((x + 2y)/10), the output pixel
at (1, 1) is (0, 0, 0, 2) — the input shifted by the mis-parenthesised
offset (−1, −1) and with the fold's all-black seed adding 1 to the alpha —
whereas the input pixel there is (3/10, 3/10, 3/10, 1). -/
theorem convolve_unit_kernel_not_identity :
    ((CpuPipeline.default.convolve 1 1 (fun _ _ => some (Rgba.mk 1 1 1 1))
        CpuPipeline.add).apply testImg4).map (fun o => o.pix 1 1) =
      some (Rgba.mk 0 0 0 2) ∧
    testImg4.pix 1 1 = Rgba.mk (3/10) (3/10) (3/10) 1 ∧
    Rgba.mk 0 0 0 2 ≠ Rgba.mk (3/10) (3/10) (3/10) 1 := by
  with_unfolding_all decide

/-- C5: `gaussian_blur(size, variance)` ignores both caller arguments: it
is definitionally the same pipeline as `gaussian_blur(5, 0.6)`, namely a
filter by the fixed needle `CpuGenerator::new(5).gaussian_needle(0.6)`.
Stated for every abstraction `pdf` of the Gaussian density. -/
theorem gaussian_blur_ignores_args (pdf : ℚ → ℚ → ℚ) (p : CpuPipeline)
    (size : Nat) (variance : ℚ) :
    p.gaussian_blur pdf size variance = p.gaussian_blur pdf 5 (6/10) ∧
    p.gaussian_blur pdf size variance = p.filter (gaussian_needle pdf 5 (6/10)) ∧
    (gaussNeedleImage pdf (6/10) 5).width = 5 ∧
    (gaussNeedleImage pdf (6/10) 5).height = 5 :=
  ⟨rfl, rfl, rfl, rfl⟩

theorem clampIdx_roundtrip (w i : Nat) (dx : Int) (hi : i < w)
    (h0 : 0 ≤ (i : Int) - dx) (h1 : (i : Int) - dx ≤ (w : Int) - 1) :
    clampIdx ((clampIdx ((i : Int) + -dx) w : Nat) + dx) w = i := by
  unfold clampIdx
  omega

/-- C7: `offset(dx, dy)` followed by `offset(-dx, -dy)` reproduces the
original raster at every pixel (i, j) that is not in the border band where
the edge-replication clamp altered the content, i.e. whenever i − dx and
j − dy land inside the raster bounds. -/
theorem offset_roundtrip_interior (img : Image) (dx dy : Int) (o : Image)
    (ho : ((CpuPipeline.default.offset dx dy).offset (-dx) (-dy)).apply img
      = some o)
    (i j : Nat) (hi : i < img.width) (hj : j < img.height)
    (hdi0 : 0 ≤ (i : Int) - dx) (hdi1 : (i : Int) - dx ≤ (img.width : Int) - 1)
    (hdj0 : 0 ≤ (j : Int) - dy) (hdj1 : (j : Int) - dy ≤ (img.height : Int) - 1) :
    o.pix i j = img.pix i j := by
  have ho' : some ((img.similar fun u v =>
      img.pix (clampIdx ((u : Int) + dx) img.width)
              (clampIdx ((v : Int) + dy) img.height)).similar fun u v =>
        (img.similar fun u' v' =>
          img.pix (clampIdx ((u' : Int) + dx) img.width)
                  (clampIdx ((v' : Int) + dy) img.height)).pix
          (clampIdx ((u : Int) + -dx) img.width)
          (clampIdx ((v : Int) + -dy) img.height)) = some o := ho
  rcases Option.some.inj ho' with rfl
  show img.pix (clampIdx ((clampIdx ((i : Int) + -dx) img.width : Nat) + dx)
      img.width)
    (clampIdx ((clampIdx ((j : Int) + -dy) img.height : Nat) + dy) img.height)
      = img.pix i j
  rw [clampIdx_roundtrip img.width i dx hi hdi0 hdi1,
    clampIdx_roundtrip img.height j dy hj hdj0 hdj1]

/-- C7 witness at a concrete raster and shift. -/
def C7out : Image :=
  (((CpuPipeline.default.offset 1 1).offset (-1) (-1)).apply testImg3).getD
    (Image.black 0 0)

theorem offset_roundtrip_interior_witness : C7out.pix 1 1 = testImg3.pix 1 1 :=
  offset_roundtrip_interior testImg3 1 1 C7out rfl 1 1 (by decide) (by decide)
    (by decide) (by decide) (by decide) (by decide)

/-- C2 counterexample: the claim says each `Median` output pixel is the
average of the min-convolution and max-convolution pixels.  On a 1-by-1
raster of gray one half with `Median(1)`, the min-convolution pixel is
(0, 0, 0, 1), the max-convolution pixel is (1/2, 1/2, 1/2, 1), and the
output pixel is their SUM (1/2, 1/2, 1/2, 2), not their average
(1/4, 1/4, 1/4, 1). -/
theorem median_average_counterexample :
    ((CpuPipeline.default.filter (Filter.Median 1)).apply halfImg).map
        (fun o => o.pix 0 0) = some (Rgba.mk (1/2) (1/2) (1/2) 2) ∧
    ((CpuPipeline.default.convolve_by (Image.from_pixel 1 1 Rgba.WHITE)
        (image_by Rgba.min)).apply halfImg).map (fun o => o.pix 0 0) =
      some (Rgba.mk 0 0 0 1) ∧
    ((CpuPipeline.default.convolve_by (Image.from_pixel 1 1 Rgba.WHITE)
        (image_by Rgba.max)).apply halfImg).map (fun o => o.pix 0 0) =
      some (Rgba.mk (1/2) (1/2) (1/2) 1) ∧
    Rgba.mk (1/2) (1/2) (1/2) 2 ≠
      (Rgba.mk 0 0 0 1 + Rgba.mk (1/2) (1/2) (1/2) 1) / (2 : ℚ) := by
  with_unfolding_all decide

/-- C2 amended: `filter(Median(size))` produces, at each pixel, the SUM of
the two convolutions of the input against an all-white size-square kernel
(one combined with min, one with max) — the channel-wise sum, with no
division by 2. -/
theorem median_sum_of_min_max (size : Nat) (img mn mx o : Image)
    (hmn : (CpuPipeline.default.convolve_by
        (Image.from_pixel size size Rgba.WHITE)
        (image_by Rgba.min)).apply img = some mn)
    (hmx : (CpuPipeline.default.convolve_by
        (Image.from_pixel size size Rgba.WHITE)
        (image_by Rgba.max)).apply img = some mx)
    (ho : (CpuPipeline.default.filter (Filter.Median size)).apply img
      = some o) :
    ∀ x y, o.pix x y = mn.pix x y + mx.pix x y := by
  have ho' : ((CpuPipeline.default.convolve_by
      (Image.from_pixel size size Rgba.WHITE)
      (image_by Rgba.min)).apply img).bind (fun mn' =>
        ((CpuPipeline.default.convolve_by
          (Image.from_pixel size size Rgba.WHITE)
          (image_by Rgba.max)).apply img).bind fun mx' =>
            some (img.similar fun x y => mn'.pix x y + mx'.pix x y))
      = some o := ho
  rw [hmn, Option.some_bind, hmx, Option.some_bind] at ho'
  rcases Option.some.inj ho' with rfl
  intro x y
  rfl

def C2mn : Image :=
  ((CpuPipeline.default.convolve_by (Image.from_pixel 1 1 Rgba.WHITE)
    (image_by Rgba.min)).apply halfImg).getD (Image.black 0 0)

def C2mx : Image :=
  ((CpuPipeline.default.convolve_by (Image.from_pixel 1 1 Rgba.WHITE)
    (image_by Rgba.max)).apply halfImg).getD (Image.black 0 0)

def C2out : Image :=
  ((CpuPipeline.default.filter (Filter.Median 1)).apply halfImg).getD
    (Image.black 0 0)

theorem median_sum_of_min_max_witness :
    C2out.pix 0 0 = C2mn.pix 0 0 + C2mx.pix 0 0 :=
  median_sum_of_min_max 1 halfImg C2mn C2mx C2out rfl rfl rfl 0 0

/-- C3: with the threshold table of `quantize` (thresholds reversed, 0.0
sentinel appended, gray level position/len at the first threshold the
intensity (r+g+b)/3 meets or exceeds — the table for [0.5] being
[(gray 0, 0.5), (gray 1, 0.0)]), a raster of constant intensity exactly
one half maps to gray level 0 at every pixel and a raster of constant
intensity 0.4 maps to gray level 1 at every pixel. -/
theorem quantize_inverted_thresholds (img : Image) :
    quantSteps [1/2] = [(Rgba.gray 0, 1/2), (Rgba.gray 1, 0)] ∧
    ((∀ x y, intensity (img.pix x y) = 1/2) →
      ∀ o, (CpuPipeline.default.quantize [1/2]).apply img = some o →
        ∀ x y, o.pix x y = Rgba.gray 0) ∧
    ((∀ x y, intensity (img.pix x y) = 2/5) →
      ∀ o, (CpuPipeline.default.quantize [1/2]).apply img = some o →
        ∀ x y, o.pix x y = Rgba.gray 1) := by
  refine ⟨by with_unfolding_all decide, ?_, ?_⟩
  · intro hint o ho
    have hlook : ∀ x y,
        stepLookup (quantSteps [1/2]) (intensity (img.pix x y)) =
          some (Rgba.gray 0, 1/2) := by
      intro x y
      rw [hint x y]
      with_unfolding_all decide
    have hguard : (List.range img.width).all (fun x =>
        (List.range img.height).all fun y =>
          (stepLookup (quantSteps [1/2])
            (intensity (img.pix x y))).isSome) = true := by
      refine List.all_eq_true.mpr fun x _ => List.all_eq_true.mpr fun y _ => ?_
      rw [hlook x y]
      rfl
    have ho' : quantFn (quantSteps [1/2]) img = some o := ho
    unfold quantFn at ho'
    rw [if_pos hguard] at ho'
    rcases Option.some.inj ho' with rfl
    intro x y
    show ((stepLookup (quantSteps [1/2])
      (intensity (img.pix x y))).getD (Rgba.gray 0, 0)).1 = Rgba.gray 0
    rw [hlook x y]
    rfl
  · intro hint o ho
    have hlook : ∀ x y,
        stepLookup (quantSteps [1/2]) (intensity (img.pix x y)) =
          some (Rgba.gray 1, 0) := by
      intro x y
      rw [hint x y]
      with_unfolding_all decide
    have hguard : (List.range img.width).all (fun x =>
        (List.range img.height).all fun y =>
          (stepLookup (quantSteps [1/2])
            (intensity (img.pix x y))).isSome) = true := by
      refine List.all_eq_true.mpr fun x _ => List.all_eq_true.mpr fun y _ => ?_
      rw [hlook x y]
      rfl
    have ho' : quantFn (quantSteps [1/2]) img = some o := ho
    unfold quantFn at ho'
    rw [if_pos hguard] at ho'
    rcases Option.some.inj ho' with rfl
    intro x y
    show ((stepLookup (quantSteps [1/2])
      (intensity (img.pix x y))).getD (Rgba.gray 0, 0)).1 = Rgba.gray 1
    rw [hlook x y]
    rfl

def C3outHalf : Image :=
  ((CpuPipeline.default.quantize [1/2]).apply halfImg).getD (Image.black 0 0)

def C3out04 : Image :=
  ((CpuPipeline.default.quantize [1/2]).apply img04).getD (Image.black 0 0)

theorem quantize_inverted_thresholds_witness :
    C3outHalf.pix 0 0 = Rgba.gray 0 ∧ C3out04.pix 0 0 = Rgba.gray 1 :=
  ⟨(quantize_inverted_thresholds halfImg).2.1
      (fun _ _ => show intensity (Rgba.gray (1/2)) = 1/2 by
        with_unfolding_all decide) C3outHalf
      (by with_unfolding_all rfl) 0 0,
    (quantize_inverted_thresholds img04).2.2
      (fun _ _ => show intensity (Rgba.gray (2/5)) = 2/5 by
        with_unfolding_all decide) C3out04
      (by with_unfolding_all rfl) 0 0⟩

/-- C6: for every pipeline built from the public builder steps (offset,
dim, add, sub, ennoise, invert, grayscale, gradient, non_max_suppress,
quantize, filter, gaussian_blur) and every input raster, a raster returned
by `apply` has the input raster's width and height. -/
theorem builder_preserves_dims (p : CpuPipeline) (h : Built p)
    (img o : Image) (ha : p.apply img = some o) :
    o.width = img.width ∧ o.height = img.height :=
  allOk_apply_dims p (built_allOk p h) img o ha

def C6out : Image :=
  ((CpuPipeline.default.grayscale.invert.quantize [1/2]).apply
    testImg3).getD (Image.black 0 0)

theorem builder_preserves_dims_witness : C6out.width = 3 ∧ C6out.height = 3 :=
  builder_preserves_dims (CpuPipeline.default.grayscale.invert.quantize [1/2])
    (Built.quantize [1/2] (Built.invert (Built.grayscale Built.default)))
    testImg3 C6out (by with_unfolding_all rfl)

/-- The kernel weight at an in-domain cell of the gradient kernel. -/
def gradWeight (x y : Nat) : Rgba := (gradientNeedle x y).getD Rgba.BLACK

/-- C8: during the gradient step's convolution the 3-by-3 kernel function
is only invoked at the cells produced by the bounded traversal
`convCells 3 3`, on all of which it returns a value (the panicking branch
for coordinates outside the domain is not reached); consequently the
gradient step never aborts: its application succeeds on every raster. -/
theorem gradient_needle_total :
    ((convCells 3 3).all fun c => (gradientNeedle c.1 c.2).isSome) = true ∧
    ∀ img : Image, ((CpuPipeline.default.gradient).apply img).isSome = true := by
  refine ⟨by decide, fun img => ?_⟩
  have hconv : convolveFn 3 3 gradientNeedle (image_by (· + ·)) img =
      convolveFn 3 3 (fun x y => some (gradWeight x y)) (image_by (· + ·))
        img := rfl
  rcases convolveFn_image_by_eval 3 3 gradWeight (· + ·) img with
    ⟨o, ho, _, _, _⟩
  show (((some img).bind
      (convolveFn 3 3 gradientNeedle (image_by (· + ·)))).bind
    absFn).isSome = true
  rw [Option.some_bind, hconv, ho, Option.some_bind]
  rfl

theorem foldl_add_alpha (g : Nat × Nat → Rgba) :
    ∀ (l : List (Nat × Nat)) (b : Rgba),
      (l.foldl (fun t c => t + g c) b).a = b.a + (l.map fun c => (g c).a).sum
  | [], b => by simp
  | c :: l, b => by
    rw [List.foldl_cons, foldl_add_alpha g l (b + g c), List.map_cons,
      List.sum_cons, Rgba.add_a, add_assoc]

theorem foldl_min_zero (ch : Rgba → ℚ)
    (hch : ∀ p q, ch (Rgba.min p q) = Min.min (ch p) (ch q)) :
    ∀ (l : List (Nat × Nat)) (g : Nat × Nat → Rgba) (b : Rgba),
      ch b = 0 → (∀ c ∈ l, 0 ≤ ch (g c)) →
      ch (l.foldl (fun t c => Rgba.min t (g c)) b) = 0
  | [], _, _, hb, _ => hb
  | c :: l, g, b, hb, hg => by
    rw [List.foldl_cons]
    refine foldl_min_zero ch hch l g (Rgba.min b (g c)) ?_
      fun d hd => hg d (List.mem_cons_of_mem c hd)
    rw [hch, hb, min_eq_left (hg c (List.mem_cons_self c l))]

/-- C9: the convolution fold starts from the empty pipeline, which
materializes to the all-black raster (r = g = b = 0, alpha = 1) of the
input's dimensions and participates as an extra operand of the combinator.
With the `add` combinator every output pixel's alpha is 1 plus the sum
over kernel cells of kernel-cell alpha times sampled input alpha; with the
`min` combinator every output pixel's r, g and b are 0 whenever all kernel
weights and input channels are non-negative. -/
theorem convolve_black_seed (nw nh : Nat) (nf : Nat → Nat → Rgba)
    (img : Image) :
    (∀ o, (CpuPipeline.default.convolve nw nh (fun x y => some (nf x y))
        CpuPipeline.add).apply img = some o →
      ∀ x y, (o.pix x y).a =
        1 + ((convCells nw nh).map fun c =>
          (nf c.1 c.2).a *
            (img.pix (clampIdx ((x : Int) + convOffset c.1 nw) img.width)
                     (clampIdx ((y : Int) + convOffset c.2 nh)
                       img.height)).a).sum) ∧
    ((∀ x y, Rgba.Nonneg (nf x y)) → (∀ x y, Rgba.Nonneg (img.pix x y)) →
      ∀ o, (CpuPipeline.default.convolve nw nh (fun x y => some (nf x y))
          (image_by Rgba.min)).apply img = some o →
      ∀ x y, (o.pix x y).r = 0 ∧ (o.pix x y).g = 0 ∧ (o.pix x y).b = 0) := by
  constructor
  · intro o ho x y
    rcases convolveFn_add_eval nw nh nf img with ⟨o', ho', _, _, hp⟩
    have ho2 : convolveFn nw nh (fun x y => some (nf x y))
        CpuPipeline.add img = some o := ho
    rw [ho'] at ho2
    rcases Option.some.inj ho2 with rfl
    rw [hp x y, foldl_add_alpha]
    show (1 : ℚ) + _ = 1 + _
    rw [List.map_congr_left fun c _ => ?_]
    show (cellSample img nw nh nf c x y).a = _
    rw [show (cellSample img nw nh nf c x y).a =
        (img.pix (clampIdx ((x : Int) + convOffset c.1 nw) img.width)
          (clampIdx ((y : Int) + convOffset c.2 nh) img.height)).a *
          (nf c.1 c.2).a from rfl, mul_comm]
  · intro hnf himg o ho x y
    rcases convolveFn_image_by_eval nw nh nf Rgba.min img with
      ⟨o', ho', _, _, hp⟩
    have ho2 : convolveFn nw nh (fun x y => some (nf x y))
        (image_by Rgba.min) img = some o := ho
    rw [ho'] at ho2
    rcases Option.some.inj ho2 with rfl
    have hsamp : ∀ (ch : Rgba → ℚ),
        (∀ p q, ch (p * q) = ch p * ch q) →
        (∀ p, Rgba.Nonneg p → 0 ≤ ch p) →
        ∀ c ∈ convCells nw nh, 0 ≤ ch (cellSample img nw nh nf c x y) := by
      intro ch hmul hpos c _
      rw [show ch (cellSample img nw nh nf c x y) =
          ch (img.pix (clampIdx ((x : Int) + convOffset c.1 nw) img.width)
            (clampIdx ((y : Int) + convOffset c.2 nh) img.height)) *
            ch (nf c.1 c.2) from hmul _ _]
      exact mul_nonneg (hpos _ (himg _ _)) (hpos _ (hnf _ _))
    refine ⟨?_, ?_, ?_⟩
    · rw [hp x y]
      exact foldl_min_zero (fun p => p.r) Rgba.min_r (convCells nw nh) _
        Rgba.BLACK rfl
        (hsamp (fun p => p.r) (fun _ _ => rfl) fun p h => h.1)
    · rw [hp x y]
      exact foldl_min_zero (fun p => p.g) Rgba.min_g (convCells nw nh) _
        Rgba.BLACK rfl
        (hsamp (fun p => p.g) (fun _ _ => rfl) fun p h => h.2.1)
    · rw [hp x y]
      exact foldl_min_zero (fun p => p.b) Rgba.min_b (convCells nw nh) _
        Rgba.BLACK rfl
        (hsamp (fun p => p.b) (fun _ _ => rfl) fun p h => h.2.2.1)

/-- The all-white 1-by-1 kernel weight used in the C9 witness. -/
def whiteNeedle : Nat → Nat → Rgba := fun _ _ => Rgba.WHITE

def C9outAdd : Image :=
  ((CpuPipeline.default.convolve 1 1 (fun x y => some (whiteNeedle x y))
    CpuPipeline.add).apply halfImg).getD (Image.black 0 0)

def C9outMin : Image :=
  ((CpuPipeline.default.convolve 1 1 (fun x y => some (whiteNeedle x y))
    (image_by Rgba.min)).apply halfImg).getD (Image.black 0 0)

theorem convolve_black_seed_witness :
    (C9outAdd.pix 0 0).a = 2 ∧
    (C9outMin.pix 0 0).r = 0 ∧ (C9outMin.pix 0 0).g = 0 ∧
    (C9outMin.pix 0 0).b = 0 := by
  have h := convolve_black_seed 1 1 whiteNeedle halfImg
  refine ⟨(h.1 C9outAdd (by with_unfolding_all rfl) 0 0).trans
    (by with_unfolding_all decide), ?_⟩
  exact h.2
    (fun _ _ => show Rgba.Nonneg Rgba.WHITE from
      ⟨by with_unfolding_all decide, by with_unfolding_all decide,
        by with_unfolding_all decide, by with_unfolding_all decide⟩)
    (fun _ _ => show Rgba.Nonneg (Rgba.gray (1/2)) from
      ⟨by with_unfolding_all decide, by with_unfolding_all decide,
        by with_unfolding_all decide, by with_unfolding_all decide⟩)
    C9outMin (by with_unfolding_all rfl) 0 0

/-- C10: for every threshold list and every raster whose pixels all have
non-negative intensity, the per-pixel threshold lookup always succeeds
(the appended 0.0 sentinel matches) and `apply` completes; conversely, on
a concrete raster with a negative-intensity pixel and the all-positive
threshold list [0.5], the lookup finds no match and the call aborts. -/
theorem quantize_lookup_safety :
    (∀ (ts : List ℚ) (img : Image),
      (∀ x y, 0 ≤ intensity (img.pix x y)) →
      ((CpuPipeline.default.quantize ts).apply img).isSome = true) ∧
    ((CpuPipeline.default.quantize [1/2]).apply negImg).isSome = false := by
  constructor
  · intro ts img hpos
    have hmem : (Rgba.gray ((ts.reverse.length : ℚ) / (ts.length : ℚ)),
        (0 : ℚ)) ∈ quantSteps ts := by
      unfold quantSteps
      exact List.mem_map_of_mem _
        (List.mk_mem_enum_iff_getElem?.mpr
          (List.getElem?_concat_length ts.reverse 0))
    have hlookup : ∀ x y,
        (stepLookup (quantSteps ts) (intensity (img.pix x y))).isSome = true :=
      fun x y => List.find?_isSome.mpr
        ⟨_, hmem, decide_eq_true (hpos x y)⟩
    have hguard : (List.range img.width).all (fun x =>
        (List.range img.height).all fun y =>
          (stepLookup (quantSteps ts)
            (intensity (img.pix x y))).isSome) = true :=
      List.all_eq_true.mpr fun x _ =>
        List.all_eq_true.mpr fun y _ => hlookup x y
    show (quantFn (quantSteps ts) img).isSome = true
    unfold quantFn
    rw [if_pos hguard]
    rfl
  · with_unfolding_all decide

theorem quantize_lookup_safety_witness :
    ((CpuPipeline.default.quantize [1/2]).apply halfImg).isSome = true :=
  quantize_lookup_safety.1 [1/2] halfImg
    (fun _ _ => show (0 : ℚ) ≤ intensity (Rgba.gray (1/2)) by
      with_unfolding_all decide)

end Canny
